import Mathlib

/-!
Shallow embedding of the chemstars startup-graph scripts and proofs about
their edge aggregation and label synthesis.

Two pipelines are embedded:
* the CSV pipeline of ConnPreProc_new3_weighted.py (rows of
  startup_connections_full.csv folded into a weighted edge map, then a
  detailed label is synthesized from each edge's connection strings), and
* the Airtable pipeline of airtable_etl.py (records are indexed by
  (category, value), index entries are expanded into pairwise sharing
  events, events are folded into a weighted edge map, and a detailed label
  is synthesized from the per-category value sets).

Python strings are modelled as lists of unicode scalar values.  Python
dicts (and defaultdicts) are modelled as insertion-ordered association
lists, which matches the guaranteed insertion iteration order of dicts.
Python sets are modelled as insertion-ordered duplicate-free lists; a set's
iteration order is NOT specified by Python, so every place where the
scripts iterate over a set, the embedding takes the enumeration as an
explicit argument.

Two deliberate approximations: `str.lower()` is modelled per character
with `Char.toLower` (ASCII case folding), and the whitespace class of
`split()`/`strip()` is modelled with `Char.isWhitespace` (space, tab,
carriage return, newline).  Both agree with Python on ASCII data, which
covers every concrete input used below.
-/

namespace Chemstars

set_option maxRecDepth 100000

/-- A Python string: a list of unicode scalar values. -/
abbrev Str := List Char

/-- Conversion from Lean string literals into the model type. -/
def str (s : String) : Str := s.data

/-- Python string comparison, lexicographic on code points (used by
`sorted` and by `tuple(sorted([a, b]))`). -/
def strLe : Str → Str → Bool
  | [], _ => true
  | _ :: _, [] => false
  | a :: as, b :: bs => if a < b then true else if b < a then false else strLe as bs

/-- `strLe` as a relation, for use with `List.insertionSort`. -/
def strLeP (a b : Str) : Prop := strLe a b = true

instance : DecidableRel strLeP :=
  fun a b => inferInstanceAs (Decidable (strLe a b = true))

theorem strLe_cons_iff (x y : Char) (xs ys : Str) :
    strLe (x :: xs) (y :: ys) = true ↔ (x < y ∨ (x = y ∧ strLe xs ys = true)) := by
  rcases lt_trichotomy x y with h | h | h
  · simp [strLe, h]
  · subst h
    simp [strLe, lt_irrefl]
  · simp [strLe, h, asymm h, h.ne']

instance : IsTotal Str strLeP where
  total := by
    intro a b
    induction a generalizing b with
    | nil => left; rfl
    | cons x xs ih =>
      cases b with
      | nil => right; rfl
      | cons y ys =>
        rcases lt_trichotomy x y with h | h | h
        · exact Or.inl ((strLe_cons_iff x y xs ys).mpr (Or.inl h))
        · subst h
          rcases ih ys with h2 | h2
          · exact Or.inl ((strLe_cons_iff x x xs ys).mpr (Or.inr ⟨rfl, h2⟩))
          · exact Or.inr ((strLe_cons_iff x x ys xs).mpr (Or.inr ⟨rfl, h2⟩))
        · exact Or.inr ((strLe_cons_iff y x ys xs).mpr (Or.inl h))

instance : IsTrans Str strLeP where
  trans := by
    intro a b c hab hbc
    induction a generalizing b c with
    | nil => rfl
    | cons x xs ih =>
      cases b with
      | nil => exact absurd hab (by simp [strLeP, strLe])
      | cons y ys =>
        cases c with
        | nil => exact absurd hbc (by simp [strLeP, strLe])
        | cons z zs =>
          have hab' := (strLe_cons_iff x y xs ys).mp hab
          have hbc' := (strLe_cons_iff y z ys zs).mp hbc
          refine (strLe_cons_iff x z xs zs).mpr ?_
          rcases hab' with h1 | ⟨h1, h1'⟩
          · rcases hbc' with h2 | ⟨h2, h2'⟩
            · exact Or.inl (lt_trans h1 h2)
            · exact Or.inl (by rw [← h2]; exact h1)
          · rcases hbc' with h2 | ⟨h2, h2'⟩
            · exact Or.inl (by rw [h1]; exact h2)
            · exact Or.inr ⟨h1.trans h2, ih ys zs h1' h2'⟩

instance : IsAntisymm Str strLeP where
  antisymm := by
    intro a b hab hba
    induction a generalizing b with
    | nil =>
      cases b with
      | nil => rfl
      | cons y ys => exact absurd hba (by simp [strLeP, strLe])
    | cons x xs ih =>
      cases b with
      | nil => exact absurd hab (by simp [strLeP, strLe])
      | cons y ys =>
        have hab' := (strLe_cons_iff x y xs ys).mp hab
        have hba' := (strLe_cons_iff y x ys xs).mp hba
        rcases hab' with h1 | ⟨h1, h1'⟩
        · rcases hba' with h2 | ⟨h2, h2'⟩
          · exact absurd h2 (asymm h1)
          · exact absurd h2.symm (ne_of_lt h1)
        · rcases hba' with h2 | ⟨h2, h2'⟩
          · exact absurd h2 (by rw [h1]; exact lt_irrefl y)
          · rw [h1, ih ys h1' h2']

/-- Python `lower()` applied to each character. -/
def strLower (s : Str) : Str := s.map Char.toLower

/-- Worker for Python `s.split()`: `cur` holds the current (reversed) run. -/
def splitWsGo (cur : Str) : Str → List Str
  | [] => if cur = [] then [] else [cur.reverse]
  | c :: rest =>
    if c.isWhitespace then
      if cur = [] then splitWsGo [] rest else cur.reverse :: splitWsGo [] rest
    else splitWsGo (c :: cur) rest

/-- Python `s.split()`: split on whitespace runs, dropping empty pieces. -/
def splitWs (s : Str) : List Str := splitWsGo [] s

/-- Python `sep.join(parts)`. -/
def joinSep (sep : Str) : List Str → Str
  | [] => []
  | [x] => x
  | x :: y :: rest => x ++ sep ++ joinSep sep (y :: rest)

def sepSpace : Str := str " "

def sepSemi : Str := str ";"

def sepSemiSpace : Str := str "; "

def sepCommaSpace : Str := str ", "

def sepColonSpace : Str := str ": "

/-- The dedup key used by both scripts: `' '.join(s.split()).lower()`. -/
def normKey (s : Str) : Str := strLower (joinSep sepSpace (splitWs s))

/-- Python `s.lstrip()` (whitespace only). -/
def ldropWs (s : Str) : Str := s.dropWhile Char.isWhitespace

/-- Drop the trailing characters satisfying `p`. -/
def dropTrailing (p : Char → Bool) (s : Str) : Str := (s.reverse.dropWhile p).reverse

/-- Python `s.strip()`. -/
def trimWs (s : Str) : Str := dropTrailing Char.isWhitespace (ldropWs s)

/-- Membership test for Python `rstrip(', ')`. -/
def isCommaSpace (c : Char) : Bool := c == ',' || c == ' '

/-- Python `s.rstrip(', ')`. -/
def rstripCommaSpace (s : Str) : Str := dropTrailing isCommaSpace s

/-- Python `s.rstrip()`. -/
def rstripWs (s : Str) : Str := dropTrailing Char.isWhitespace s

/-- A Python `set` add, on the set's insertion-ordered list model. -/
def insertSet (l : List Str) (x : Str) : List Str := if x ∈ l then l else l ++ [x]

/-- Python `s.replace(' ' + mid + ' ', '-')`, scanning left to right over
non-overlapping occurrences. -/
def replaceSep (mid : Char) : Str → Str
  | c :: d :: e :: rest =>
    if c = ' ' ∧ d = mid ∧ e = ' ' then '-' :: replaceSep mid rest
    else c :: replaceSep mid (d :: e :: rest)
  | s => s

/-- `norm_location` of ConnPreProc_new3_weighted.py:
`s.replace(' - ', '-').replace(' – ', '-').strip()`. -/
def norm_location (s : Str) : Str := trimWs (replaceSep '–' (replaceSep '-' s))

/-- `normalize_location` of airtable_etl.py (same replaces behind an
emptiness guard). -/
def normalize_location (s : Str) : Str :=
  if s = [] then [] else trimWs (replaceSep '–' (replaceSep '-' s))

/-- `tuple(sorted([a, b]))`: the canonical unordered pair key. -/
def pairKey (a b : Str) : Str × Str := if strLe a b then (a, b) else (b, a)

/-- Update-or-append on an insertion-ordered association list: the model of
`d[k]` mutation on a Python (default)dict.  A missing key is created from
`dflt` and then updated with `f`, an existing entry is updated in place. -/
def upsert {β : Type} :
    List ((Str × Str) × β) → (Str × Str) → β → (β → β) → List ((Str × Str) × β)
  | [], k, dflt, f => [(k, f dflt)]
  | (k', v) :: rest, k, dflt, f =>
    if k' = k then (k', f v) :: rest else (k', v) :: upsert rest k dflt f

/-- First-match lookup on the association list. -/
def lookupE {β : Type} : List ((Str × Str) × β) → (Str × Str) → Option β
  | [], _ => none
  | (k', v) :: rest, k => if k' = k then some v else lookupE rest k

/-- Fold a stream of events into the keyed edge map (the shared shape of
both scripts' aggregation loops over a `defaultdict`). -/
def aggregate {α β : Type} (keyf : α → Str × Str) (base : β) (upd : α → β → β)
    (evs : List α) : List ((Str × Str) × β) :=
  evs.foldl (fun m e => upsert m (keyf e) base (upd e)) []

/-- Python `sorted` on strings. -/
def sortStr (l : List Str) : List Str := List.insertionSort strLeP l

/-- `itertools.combinations(l, 2)`, in emission order. -/
def pairs : List Str → List (Str × Str)
  | [] => []
  | x :: xs => xs.map (fun y => (x, y)) ++ pairs xs

/-! ### The CSV pipeline (ConnPreProc_new3_weighted.py) -/

/-- One row of startup_connections_full.csv, with the columns the script
reads: Source, Target, Type and Connection_full. -/
structure RowCSV where
  Source : Str
  Target : Str
  rowType : Str
  Connection_full : Str
deriving DecidableEq

/-- One value of the CSV script's `combined_edges` defaultdict. -/
structure EdgeInfoCSV where
  weight : Nat
  types : List Str
  connections : List Str
deriving DecidableEq

def emptyInfoCSV : EdgeInfoCSV := ⟨0, [], []⟩

/-- Folding one row into its edge (lines 17–20 of the CSV script). -/
def csv_fold_row (r : RowCSV) (i : EdgeInfoCSV) : EdgeInfoCSV :=
  { weight := i.weight + 1
    types := insertSet i.types r.rowType
    connections := insertSet i.connections r.Connection_full }

/-- `node_pair = tuple(sorted([row['Source'], row['Target']]))`. -/
def rowKey (r : RowCSV) : Str × Str := pairKey r.Source r.Target

/-- The CSV script's `combined_edges` map after folding all rows. -/
def combined_edges_csv (rows : List RowCSV) : List ((Str × Str) × EdgeInfoCSV) :=
  aggregate rowKey emptyInfoCSV csv_fold_row rows

def catCity : Str := str "city"

def catCountry : Str := str "country"

def catCompetency : Str := str "competency"

def catImpact : Str := str "impact"

def catTargetMarket : Str := str "target_market"

def catTechnicalCompetency : Str := str "technical_competency"

def catRegion : Str := str "region"

def catCohort : Str := str "cohort"

/-- The CSV script's `parsed` mapping (its six fixed keys). -/
structure ParsedConn where
  city : List Str
  country : List Str
  competency : List Str
  impact : List Str
  target_market : List Str
  other : List Str
deriving DecidableEq

def emptyParsed : ParsedConn := ⟨[], [], [], [], [], []⟩

/-- Split at the first occurrence of the separator `': '`, as
`conn.split(': ', 1)` does; `none` when `': ' not in conn`. -/
def splitColonSpace : Str → Option (Str × Str)
  | ':' :: ' ' :: rest => some ([], rest)
  | c :: rest =>
    match splitColonSpace rest with
    | some (t, v) => some (c :: t, v)
    | none => none
  | [] => none

/-- One iteration of the CSV script's connection-string parsing loop
(lines 27–38): a well-formed `'type: value'` string is filed under its
type when the type is one of the parsed keys, otherwise under `'other'`;
a string without the separator is filed whole under `'other'`. -/
def parse_conn (p : ParsedConn) (conn : Str) : ParsedConn :=
  match splitColonSpace conn with
  | some (t0, v0) =>
    let t := strLower (trimWs t0)
    let v := trimWs v0
    if t = catCity then { p with city := p.city ++ [v] }
    else if t = catCountry then { p with country := p.country ++ [v] }
    else if t = catCompetency then { p with competency := p.competency ++ [v] }
    else if t = catImpact then { p with impact := p.impact ++ [v] }
    else if t = catTargetMarket then { p with target_market := p.target_market ++ [v] }
    else { p with other := p.other ++ [v] }
  | none => { p with other := p.other ++ [conn] }

/-- Total number of values filed in a `ParsedConn`. -/
def parsedCount (p : ParsedConn) : Nat :=
  p.city.length + p.country.length + p.competency.length + p.impact.length
    + p.target_market.length + p.other.length

/-- Worker for `dedupe_preserve_order`: `seen` is the set of normalization
keys already emitted. -/
def dedupe_go (seen : List Str) : List Str → List Str
  | [] => []
  | s :: rest =>
    let key := normKey s
    if key ≠ [] ∧ key ∉ seen then s :: dedupe_go (key :: seen) rest
    else dedupe_go seen rest

/-- `dedupe_preserve_order` of the CSV script (lines 63–71); the same
algorithm is repeated for the token dedup at lines 108–114. -/
def dedupe_preserve_order (l : List Str) : List Str := dedupe_go [] l

/-- First element or the empty string (`xs[0] if xs else ''`). -/
def headStr : List Str → Str
  | [] => []
  | c :: _ => c

/-- The `raw_parts` assembly of the CSV script (lines 88–104): source,
target (when distinct from source), then the competency, impact,
target-market, city and country tokens, each included when nonempty. -/
def raw_parts_csv (source target comp_str imp_str market_str city_str country_str : Str) :
    List Str :=
  (if source ≠ [] then [source] else [])
    ++ (if target ≠ [] ∧ target ≠ source then [target] else [])
    ++ (if comp_str ≠ [] then [comp_str] else [])
    ++ (if imp_str ≠ [] then [imp_str] else [])
    ++ (if market_str ≠ [] then [market_str] else [])
    ++ (if city_str ≠ [] then [city_str] else [])
    ++ (if country_str ≠ [] then [country_str] else [])

/-- The CSV detailed label before truncation (lines 26–116).  `conns` is
the enumeration of the edge's connection set in the order Python's set
iteration yields it (that order is unspecified, hence the parameter). -/
def label_detailed_csv_pre (source target : Str) (conns : List Str) : Str :=
  let p := conns.foldl parse_conn emptyParsed
  let competencies := dedupe_preserve_order p.competency
  let impacts := dedupe_preserve_order p.impact
  let markets := dedupe_preserve_order p.target_market
  let comp_str := joinSep sepSemi competencies
  let imp_str := joinSep sepSemi impacts
  let market_str := joinSep sepSemi markets
  let city0 := headStr p.city
  let country0 := headStr p.country
  let city_str := if city0 = [] then [] else norm_location city0
  let country_str := if country0 = [] then [] else norm_location country0
  joinSep sepCommaSpace
    (dedupe_preserve_order
      (raw_parts_csv source target comp_str imp_str market_str city_str country_str))

/-- The truncation marker appended by both scripts. -/
def truncMarker : Char := '…'

/-- CSV truncation (lines 119–121):
`label[:119].rstrip(', ').rstrip() + '…'` past 120 characters. -/
def truncate_csv (label : Str) : Str :=
  if 120 < label.length then rstripWs (rstripCommaSpace (label.take 119)) ++ [truncMarker]
  else label

/-- The exported `LabelDetailed` of one CSV edge. -/
def label_detailed_csv (source target : Str) (conns : List Str) : Str :=
  truncate_csv (label_detailed_csv_pre source target conns)

/-! ### The Airtable pipeline (airtable_etl.py) -/

/-- The connection-relevant fields of one Airtable record, after field
extraction (`fields.get(...)`): the startup name plus the seven array
fields that are indexed. -/
structure RecordA where
  startup : Str
  competencies : List Str
  technical_competencies : List Str
  impacts : List Str
  countries : List Str
  cities : List Str
  regions : List Str
  cohorts : List Str
deriving DecidableEq

/-- `clean_array_field` on an array field (lines 62–68):
`[str(v).strip() for v in field_value if v]`. -/
def clean_array_field (l : List Str) : List Str :=
  (l.filter (fun v => !v.isEmpty)).map trimWs

/-- `connection_index[(cat, v)].append(name)` on the defaultdict(list). -/
def indexAdd (m : List ((Str × Str) × List Str)) (k : Str × Str) (name : Str) :
    List ((Str × Str) × List Str) :=
  upsert m k [] (fun l => l ++ [name])

/-- Index one cleaned value list under one category for one startup. -/
def indexCat (cat : Str) (name : Str) (m : List ((Str × Str) × List Str))
    (vals : List Str) : List ((Str × Str) × List Str) :=
  vals.foldl (fun i v => indexAdd i (cat, v) name) m

/-- Index one record (lines 89–133): a record whose stripped startup name
is empty is skipped entirely, otherwise its cleaned field values are
indexed category by category, in the source's order. -/
def indexRecord (m : List ((Str × Str) × List Str)) (r : RecordA) :
    List ((Str × Str) × List Str) :=
  let name := trimWs r.startup
  if name = [] then m
  else
    indexCat catCohort name
      (indexCat catRegion name
        (indexCat catCity name
          (indexCat catCountry name
            (indexCat catImpact name
              (indexCat catTechnicalCompetency name
                (indexCat catCompetency name m (clean_array_field r.competencies))
                (clean_array_field r.technical_competencies))
              (clean_array_field r.impacts))
            (clean_array_field r.countries))
          (clean_array_field r.cities))
        (clean_array_field r.regions))
      (clean_array_field r.cohorts)

/-- The `connection_index` built over all records. -/
def connection_index (recs : List RecordA) : List ((Str × Str) × List Str) :=
  recs.foldl indexRecord []

/-- All cleaned values one record contributes to the index. -/
def cleaned_values (r : RecordA) : List Str :=
  clean_array_field r.competencies ++ clean_array_field r.technical_competencies
    ++ clean_array_field r.impacts ++ clean_array_field r.countries
    ++ clean_array_field r.cities ++ clean_array_field r.regions
    ++ clean_array_field r.cohorts

/-- One sharing event: the category, the shared value, and the two
entities of the emitted pair. -/
structure EventAPI where
  ctype : Str
  cvalue : Str
  source : Str
  target : Str
deriving DecidableEq

/-- One value of the Airtable script's `combined_edges` defaultdict. -/
structure EdgeInfoAPI where
  weight : Nat
  types : List Str
  connections : List Str
  competencies : List Str
  technical_competencies : List Str
  impacts : List Str
  cities : List Str
  countries : List Str
  regions : List Str
  cohorts : List Str
deriving DecidableEq

def emptyInfoAPI : EdgeInfoAPI := ⟨0, [], [], [], [], [], [], [], [], []⟩

/-- `edge_key = tuple(sorted([source, target]))`. -/
def eventKey (e : EventAPI) : Str × Str := pairKey e.source e.target

/-- Folding one sharing event into its edge (lines 159–182): weight,
type set, connection-string set, plus the per-category value set of the
event's category. -/
def api_fold_event (e : EventAPI) (i : EdgeInfoAPI) : EdgeInfoAPI :=
  let i :=
    { i with
      weight := i.weight + 1
      types := insertSet i.types e.ctype
      connections := insertSet i.connections (e.ctype ++ sepColonSpace ++ e.cvalue) }
  if e.ctype = catCompetency then
    { i with competencies := insertSet i.competencies e.cvalue }
  else if e.ctype = catTechnicalCompetency then
    { i with technical_competencies := insertSet i.technical_competencies e.cvalue }
  else if e.ctype = catImpact then
    { i with impacts := insertSet i.impacts e.cvalue }
  else if e.ctype = catCity then
    { i with cities := insertSet i.cities e.cvalue }
  else if e.ctype = catCountry then
    { i with countries := insertSet i.countries e.cvalue }
  else if e.ctype = catRegion then
    { i with regions := insertSet i.regions e.cvalue }
  else if e.ctype = catCohort then
    { i with cohorts := insertSet i.cohorts e.cvalue }
  else i

/-- The Airtable script's `combined_edges` map over a sharing-event
stream. -/
def combined_edges_api (evs : List EventAPI) : List ((Str × Str) × EdgeInfoAPI) :=
  aggregate eventKey emptyInfoAPI api_fold_event evs

/-- The unordered pairs one index entry expands to (lines 156–159):
nothing below two listed entities, otherwise `combinations(sorted(l), 2)`. -/
def expand_entry_pairs (names : List Str) : List (Str × Str) :=
  if names.length < 2 then [] else pairs (sortStr names)

/-- The sharing events one index entry emits. -/
def expand_entry (ck : Str × Str) (names : List Str) : List EventAPI :=
  (expand_entry_pairs names).map (fun p => ⟨ck.1, ck.2, p.1, p.2⟩)

/-- The full event stream of the Pair Expander, in index iteration order. -/
def expand_index (idx : List ((Str × Str) × List Str)) : List EventAPI :=
  (idx.map (fun kv => expand_entry kv.1 kv.2)).flatten

/-- The Airtable detailed label before truncation (lines 188–204): one
token per nonempty per-category set, `'; '`-joined over the sorted set
(locations normalized after sorting), in the source's category order. -/
def label_detailed_api_pre (i : EdgeInfoAPI) : Str :=
  joinSep sepCommaSpace
    ((if i.competencies ≠ [] then [joinSep sepSemiSpace (sortStr i.competencies)] else [])
      ++ (if i.technical_competencies ≠ [] then
            [joinSep sepSemiSpace (sortStr i.technical_competencies)] else [])
      ++ (if i.impacts ≠ [] then [joinSep sepSemiSpace (sortStr i.impacts)] else [])
      ++ (if i.cities ≠ [] then
            [joinSep sepSemiSpace ((sortStr i.cities).map normalize_location)] else [])
      ++ (if i.countries ≠ [] then
            [joinSep sepSemiSpace ((sortStr i.countries).map normalize_location)] else [])
      ++ (if i.regions ≠ [] then [joinSep sepSemiSpace (sortStr i.regions)] else [])
      ++ (if i.cohorts ≠ [] then [joinSep sepSemiSpace (sortStr i.cohorts)] else []))

/-- Airtable truncation (lines 207–209): `label[:119].rstrip(', ') + '…'`
past 120 characters. -/
def truncate_api (label : Str) : Str :=
  if 120 < label.length then rstripCommaSpace (label.take 119) ++ [truncMarker]
  else label

/-- The exported `label_detailed` of one Airtable edge. -/
def label_detailed_api (i : EdgeInfoAPI) : Str := truncate_api (label_detailed_api_pre i)

/-- Weight stored at a key of an edge map, `0` when the key is absent
(the `defaultdict` default). -/
def wAt {β : Type} (w : β → Nat) (m : List ((Str × Str) × β)) (k : Str × Str) : Nat :=
  match lookupE m k with
  | some v => w v
  | none => 0

/-- The API label tokens in the precedence order the spec asserts
(competency-like categories, impact, then region and cohort, then city,
then country), to be compared against the source's actual order. -/
def spec_order_label_api (i : EdgeInfoAPI) : Str :=
  joinSep sepCommaSpace
    ((if i.competencies ≠ [] then [joinSep sepSemiSpace (sortStr i.competencies)] else [])
      ++ (if i.technical_competencies ≠ [] then
            [joinSep sepSemiSpace (sortStr i.technical_competencies)] else [])
      ++ (if i.impacts ≠ [] then [joinSep sepSemiSpace (sortStr i.impacts)] else [])
      ++ (if i.regions ≠ [] then [joinSep sepSemiSpace (sortStr i.regions)] else [])
      ++ (if i.cohorts ≠ [] then [joinSep sepSemiSpace (sortStr i.cohorts)] else [])
      ++ (if i.cities ≠ [] then
            [joinSep sepSemiSpace ((sortStr i.cities).map normalize_location)] else [])
      ++ (if i.countries ≠ [] then
            [joinSep sepSemiSpace ((sortStr i.countries).map normalize_location)] else []))

/-- The API label tokens in the order the code actually uses: competencies,
technical competencies, impacts, cities, countries, regions, cohorts; one
token per category whose value set is nonempty. -/
def api_token_order (i : EdgeInfoAPI) : List Str :=
  List.filterMap (fun st => if st.1 ≠ ([] : List Str) then some st.2 else none)
    [(i.competencies, joinSep sepSemiSpace (sortStr i.competencies)),
      (i.technical_competencies, joinSep sepSemiSpace (sortStr i.technical_competencies)),
      (i.impacts, joinSep sepSemiSpace (sortStr i.impacts)),
      (i.cities, joinSep sepSemiSpace ((sortStr i.cities).map normalize_location)),
      (i.countries, joinSep sepSemiSpace ((sortStr i.countries).map normalize_location)),
      (i.regions, joinSep sepSemiSpace (sortStr i.regions)),
      (i.cohorts, joinSep sepSemiSpace (sortStr i.cohorts))]

/-- The CSV token precedence as the claim states it: the two entity names
first (target only when distinct from source), then the competency,
impact, target-market, city and country tokens, nonempty ones only. -/
def csv_token_order (source target comp_str imp_str market_str city_str country_str : Str) :
    List Str :=
  (if source ≠ [] then [source] else [])
    ++ (if target ≠ [] ∧ target ≠ source then [target] else [])
    ++ List.filter (fun t => decide (t ≠ []))
        [comp_str, imp_str, market_str, city_str, country_str]

/-! ### Concrete inputs used by counterexamples and witnesses -/

def strA : Str := str "A"

def strB : Str := str "B"

def strC : Str := str "C"

def strD : Str := str "D"

def csX : Str := str "city: X"

def rowSelf : RowCSV := ⟨strA, strA, catCity, csX⟩

def rowAB : RowCSV := ⟨strA, strB, catCity, csX⟩

def rowBA : RowCSV := ⟨strB, strA, catCity, csX⟩

def connML : Str := str "competency: ML"

def connNLP : Str := str "competency: NLP"

def connml : Str := str "competency: ml"

def valML : Str := str "ML"

def valml : Str := str "ml"

def valNLP : Str := str "NLP"

def evML : EventAPI := ⟨catCompetency, valML, strA, strB⟩

def evml : EventAPI := ⟨catCompetency, valml, strA, strB⟩

def valPa : Str := str "Pa"

def valQa : Str := str "Qa"

def evCity : EventAPI := ⟨catCity, valPa, strA, strB⟩

def evRegion : EventAPI := ⟨catRegion, valQa, strA, strB⟩

def labelPaQa : Str := str "Pa, Qa"

def labelQaPa : Str := str "Qa, Pa"

def longVal : Str := List.replicate 112 'x' ++ [truncMarker, 'y', 'y']

def longConn : Str := catCompetency ++ sepColonSpace ++ longVal

def longVal2 : Str := List.replicate 130 'z'

def longConn2 : Str := catImpact ++ sepColonSpace ++ longVal2

def wsOnly : Str := str "  "

def recWS : RecordA := ⟨strA, [wsOnly], [], [], [], [], [], []⟩

def hiRaw : Str := str " hi "

def hiTrim : Str := str "hi"

def recW9 : RecordA := ⟨strB, [hiRaw], [], [], [], [], [], []⟩

def fooBar : Str := str "foo: bar"

def strFoo : Str := str "foo"

def strBar : Str := str "bar"

def names4 : List Str := [strB, strA, strD, strC]

def iW1 : EdgeInfoAPI := ⟨0, [], [], [valML, valNLP], [], [], [], [], [], []⟩

def iW2 : EdgeInfoAPI := ⟨0, [], [], [valNLP, valML], [], [], [], [], [], []⟩

def infoABcity : EdgeInfoCSV := ⟨1, [catCity], [csX]⟩

def infoABcity2 : EdgeInfoCSV := ⟨2, [catCity], [csX]⟩

def infoMLml : EdgeInfoAPI :=
  ⟨2, [catCompetency], [connML, connml], [valML, valml], [], [], [], [], [], []⟩

/-! ### Generic lemmas about the association-list edge map -/

theorem lookupE_upsert {β : Type} (m : List ((Str × Str) × β)) (k k' : Str × Str)
    (dflt : β) (f : β → β) :
    lookupE (upsert m k dflt f) k'
      = if k' = k then some (f ((lookupE m k).getD dflt)) else lookupE m k' := by
  induction m with
  | nil =>
    by_cases h : k' = k
    · subst h; simp [upsert, lookupE]
    · simp [upsert, lookupE, h, Ne.symm h]
  | cons kv0 rest ih =>
    obtain ⟨k0, v0⟩ := kv0
    by_cases h0 : k0 = k
    · subst h0
      by_cases h1 : k' = k0
      · subst h1; simp [upsert, lookupE]
      · simp [upsert, lookupE, h1, Ne.symm h1]
    · by_cases h1 : k0 = k'
      · subst h1
        have h2 : ¬ k0 = k := h0
        simp [upsert, lookupE, h0, fun h => h2 h]
      · simp [upsert, lookupE, h0, h1, ih]

theorem wAt_upsert {β : Type} (w : β → Nat) (m : List ((Str × Str) × β))
    (k k' : Str × Str) (dflt : β) (f : β → β)
    (hd : w dflt = 0) (hf : ∀ v, w (f v) = w v + 1) :
    wAt w (upsert m k dflt f) k' = wAt w m k' + (if k' = k then 1 else 0) := by
  unfold wAt
  rw [lookupE_upsert]
  by_cases h : k' = k
  · subst h
    cases hm : lookupE m k' with
    | none => simp [hm, hf, hd]
    | some v => simp [hm, hf]
  · simp [h]

theorem wAt_aggregate_loop {α β : Type} (keyf : α → Str × Str) (base : β)
    (upd : α → β → β) (w : β → Nat)
    (hb : w base = 0) (hu : ∀ e v, w (upd e v) = w v + 1) :
    ∀ (evs : List α) (m : List ((Str × Str) × β)) (k : Str × Str),
      wAt w (List.foldl (fun m e => upsert m (keyf e) base (upd e)) m evs) k
        = wAt w m k + evs.countP (fun e => decide (keyf e = k)) := by
  intro evs
  induction evs with
  | nil => intro m k; simp
  | cons e evs ih =>
    intro m k
    simp only [List.foldl_cons, List.countP_cons]
    rw [ih, wAt_upsert w m (keyf e) k base (upd e) hb (hu e)]
    by_cases h : keyf e = k
    · simp [h, Nat.add_comm, Nat.add_assoc, Nat.add_left_comm]
    · have h' : ¬ k = keyf e := fun hh => h hh.symm
      simp [h, h']

/-- Weight additivity over a whole run, keys absent from the map counting
as weight `0`. -/
theorem wAt_aggregate {α β : Type} (keyf : α → Str × Str) (base : β)
    (upd : α → β → β) (w : β → Nat)
    (hb : w base = 0) (hu : ∀ e v, w (upd e v) = w v + 1)
    (evs : List α) (k : Str × Str) :
    wAt w (aggregate keyf base upd evs) k = evs.countP (fun e => decide (keyf e = k)) := by
  have h := wAt_aggregate_loop keyf base upd w hb hu evs [] k
  simpa [aggregate, wAt, lookupE] using h

theorem mem_upsert {β : Type} {m : List ((Str × Str) × β)} {k : Str × Str}
    {dflt : β} {f : β → β} {kv : (Str × Str) × β} (h : kv ∈ upsert m k dflt f) :
    kv.1 = k ∨ kv ∈ m := by
  induction m with
  | nil =>
    simp only [upsert, List.mem_singleton] at h
    left; rw [h]
  | cons kv0 rest ih =>
    obtain ⟨k0, v0⟩ := kv0
    simp only [upsert] at h
    by_cases h0 : k0 = k
    · rw [if_pos h0] at h
      rcases List.mem_cons.mp h with h1 | h1
      · left; rw [h1]; exact h0
      · right; exact List.mem_cons_of_mem _ h1
    · rw [if_neg h0] at h
      rcases List.mem_cons.mp h with h1 | h1
      · right; rw [h1]; exact List.mem_cons_self _ _
      · rcases ih h1 with h2 | h2
        · left; exact h2
        · right; exact List.mem_cons_of_mem _ h2

theorem upsert_forall {β : Type} (P : β → Prop) {m : List ((Str × Str) × β)}
    (k : Str × Str) (dflt : β) (f : β → β)
    (hm : ∀ kv ∈ m, P kv.2) (hd : P (f dflt)) (hf : ∀ v, P v → P (f v)) :
    ∀ kv ∈ upsert m k dflt f, P kv.2 := by
  induction m with
  | nil =>
    intro kv h
    simp only [upsert, List.mem_singleton] at h
    rw [h]; exact hd
  | cons kv0 rest ih =>
    obtain ⟨k0, v0⟩ := kv0
    intro kv h
    simp only [upsert] at h
    by_cases h0 : k0 = k
    · rw [if_pos h0] at h
      rcases List.mem_cons.mp h with h1 | h1
      · rw [h1]; exact hf v0 (hm (k0, v0) (List.mem_cons_self _ _))
      · exact hm kv (List.mem_cons_of_mem _ h1)
    · rw [if_neg h0] at h
      rcases List.mem_cons.mp h with h1 | h1
      · rw [h1]; exact hm (k0, v0) (List.mem_cons_self _ _)
      · exact ih (fun kv2 h2 => hm kv2 (List.mem_cons_of_mem _ h2)) kv h1

theorem aggregate_forall_loop {α β : Type} (keyf : α → Str × Str) (base : β)
    (upd : α → β → β) (P : β → Prop)
    (hbase : ∀ e, P (upd e base)) (hstep : ∀ e v, P v → P (upd e v)) :
    ∀ (evs : List α) (m : List ((Str × Str) × β)), (∀ kv ∈ m, P kv.2) →
      ∀ kv ∈ List.foldl (fun m e => upsert m (keyf e) base (upd e)) m evs, P kv.2 := by
  intro evs
  induction evs with
  | nil => intro m hm; simp only [List.foldl_nil]; exact hm
  | cons e evs ih =>
    intro m hm
    simp only [List.foldl_cons]
    exact ih _ (upsert_forall P (keyf e) base (upd e) hm (hbase e) (hstep e))

/-- Every edge of an aggregated map satisfies any invariant established by
the first event and preserved by later events. -/
theorem aggregate_forall {α β : Type} (keyf : α → Str × Str) (base : β)
    (upd : α → β → β) (P : β → Prop)
    (hbase : ∀ e, P (upd e base)) (hstep : ∀ e v, P v → P (upd e v))
    (evs : List α) : ∀ kv ∈ aggregate keyf base upd evs, P kv.2 :=
  aggregate_forall_loop keyf base upd P hbase hstep evs []
    (fun kv h => absurd h (List.not_mem_nil kv))

theorem aggregate_mem_key_loop {α β : Type} (keyf : α → Str × Str) (base : β)
    (upd : α → β → β) :
    ∀ (evs : List α) (m : List ((Str × Str) × β)) kv,
      kv ∈ List.foldl (fun m e => upsert m (keyf e) base (upd e)) m evs →
      kv ∈ m ∨ kv.1 ∈ evs.map keyf := by
  intro evs
  induction evs with
  | nil => intro m kv h; left; simpa using h
  | cons e evs ih =>
    intro m kv h
    simp only [List.foldl_cons] at h
    rcases ih _ kv h with h1 | h1
    · rcases mem_upsert h1 with h2 | h2
      · right; rw [h2]; exact List.mem_map_of_mem keyf (List.mem_cons_self _ _)
      · left; exact h2
    · right
      simp only [List.map_cons, List.mem_cons]
      right; exact h1

/-- Every key of an aggregated map is the key of one of the folded
events. -/
theorem aggregate_mem_key {α β : Type} (keyf : α → Str × Str) (base : β)
    (upd : α → β → β) (evs : List α) {kv : (Str × Str) × β}
    (h : kv ∈ aggregate keyf base upd evs) : kv.1 ∈ evs.map keyf := by
  rcases aggregate_mem_key_loop keyf base upd evs [] kv h with h1 | h1
  · simp at h1
  · exact h1

theorem upsert_keys_nodup {β : Type} {m : List ((Str × Str) × β)}
    (h : (m.map Prod.fst).Nodup) (k : Str × Str) (dflt : β) (f : β → β) :
    ((upsert m k dflt f).map Prod.fst).Nodup := by
  induction m with
  | nil => simp [upsert]
  | cons kv0 rest ih =>
    obtain ⟨k0, v0⟩ := kv0
    simp only [List.map_cons, List.nodup_cons] at h
    by_cases h0 : k0 = k
    · simp only [upsert, if_pos h0, List.map_cons, List.nodup_cons]
      exact h
    · simp only [upsert, if_neg h0, List.map_cons, List.nodup_cons]
      refine ⟨?_, ih h.2⟩
      intro hmem
      rcases List.mem_map.mp hmem with ⟨kv, hkv, hfst⟩
      rcases mem_upsert hkv with h1 | h1
      · exact h0 (by rw [← hfst]; exact h1)
      · exact h.1 (by rw [← hfst]; exact List.mem_map_of_mem Prod.fst h1)

theorem aggregate_keys_nodup_loop {α β : Type} (keyf : α → Str × Str) (base : β)
    (upd : α → β → β) :
    ∀ (evs : List α) (m : List ((Str × Str) × β)), (m.map Prod.fst).Nodup →
      ((List.foldl (fun m e => upsert m (keyf e) base (upd e)) m evs).map Prod.fst).Nodup := by
  intro evs
  induction evs with
  | nil => intro m hm; simpa using hm
  | cons e evs ih =>
    intro m hm
    simp only [List.foldl_cons]
    exact ih _ (upsert_keys_nodup hm (keyf e) base (upd e))

theorem aggregate_keys_nodup {α β : Type} (keyf : α → Str × Str) (base : β)
    (upd : α → β → β) (evs : List α) :
    ((aggregate keyf base upd evs).map Prod.fst).Nodup :=
  aggregate_keys_nodup_loop keyf base upd evs [] (by simp)

theorem lookupE_of_mem {β : Type} {m : List ((Str × Str) × β)}
    (h : (m.map Prod.fst).Nodup) {kv : (Str × Str) × β} (hkv : kv ∈ m) :
    lookupE m kv.1 = some kv.2 := by
  induction m with
  | nil => simp at hkv
  | cons kv0 rest ih =>
    obtain ⟨k0, v0⟩ := kv0
    simp only [List.map_cons, List.nodup_cons] at h
    rcases List.mem_cons.mp hkv with h1 | h1
    · rw [h1]; simp [lookupE]
    · have hne : ¬ k0 = kv.1 := by
        intro hk
        exact h.1 (hk ▸ List.mem_map_of_mem Prod.fst h1)
      simp only [lookupE, if_neg hne]
      exact ih h.2 h1

/-! ### The canonical pair key and the pair expansion -/

theorem strLe_total_bool (a b : Str) : strLe a b = true ∨ strLe b a = true :=
  IsTotal.total (r := strLeP) a b

/-- The two components of a pair key are in sorted order. -/
theorem pairKey_le (a b : Str) : strLe (pairKey a b).1 (pairKey a b).2 = true := by
  unfold pairKey
  by_cases h : strLe a b = true
  · simp [h]
  · rcases strLe_total_bool a b with h1 | h1
    · exact absurd h1 h
    · simp [h, h1]

/-- Distinct entities get a pair key with distinct components. -/
theorem pairKey_ne {a b : Str} (h : a ≠ b) : (pairKey a b).1 ≠ (pairKey a b).2 := by
  unfold pairKey
  split
  · exact h
  · exact h.symm

theorem pairs_length (l : List Str) : (pairs l).length = Nat.choose l.length 2 := by
  induction l with
  | nil => rfl
  | cons x xs ih =>
    simp only [pairs, List.length_append, List.length_map, ih, List.length_cons,
      Nat.choose_succ_succ, Nat.choose_one_right]

theorem mem_pairs {l : List Str} {p : Str × Str} (h : p ∈ pairs l) :
    p.1 ∈ l ∧ p.2 ∈ l := by
  induction l with
  | nil => simp [pairs] at h
  | cons x xs ih =>
    simp only [pairs, List.mem_append] at h
    rcases h with h1 | h1
    · rcases List.mem_map.mp h1 with ⟨y, hy, hp⟩
      rw [← hp]
      exact ⟨List.mem_cons_self _ _, List.mem_cons_of_mem _ hy⟩
    · rcases ih h1 with ⟨h2, h3⟩
      exact ⟨List.mem_cons_of_mem _ h2, List.mem_cons_of_mem _ h3⟩

theorem pairs_ne_of_nodup {l : List Str} (h : l.Nodup) :
    ∀ p ∈ pairs l, p.1 ≠ p.2 := by
  induction l with
  | nil => intro p hp; simp [pairs] at hp
  | cons x xs ih =>
    rcases List.nodup_cons.mp h with ⟨hx, hxs⟩
    intro p hp
    simp only [pairs, List.mem_append] at hp
    rcases hp with h1 | h1
    · rcases List.mem_map.mp h1 with ⟨y, hy, hp2⟩
      rw [← hp2]
      intro hxy
      have hxy' : x = y := hxy
      exact hx (by rw [hxy']; exact hy)
    · exact ih hxs p h1

theorem pairs_le_of_sorted {l : List Str} (h : List.Sorted strLeP l) :
    ∀ p ∈ pairs l, strLe p.1 p.2 = true := by
  induction l with
  | nil => intro p hp; simp [pairs] at hp
  | cons x xs ih =>
    rcases List.sorted_cons.mp h with ⟨hx, hxs⟩
    intro p hp
    simp only [pairs, List.mem_append] at hp
    rcases hp with h1 | h1
    · rcases List.mem_map.mp h1 with ⟨y, hy, hp2⟩
      rw [← hp2]
      exact hx y hy
    · exact ih hxs p h1

theorem pairs_cover (l : List Str) :
    ∀ a b, a ∈ l → b ∈ l → a ≠ b → (a, b) ∈ pairs l ∨ (b, a) ∈ pairs l := by
  induction l with
  | nil => intro a b ha; simp at ha
  | cons x xs ih =>
    intro a b ha hb hne
    rcases List.mem_cons.mp ha with ha1 | ha1
    · rcases List.mem_cons.mp hb with hb1 | hb1
      · exact absurd (ha1.trans hb1.symm) hne
      · left
        simp only [pairs, List.mem_append]
        left
        rw [ha1]
        exact List.mem_map_of_mem _ hb1
    · rcases List.mem_cons.mp hb with hb1 | hb1
      · right
        simp only [pairs, List.mem_append]
        left
        rw [hb1]
        exact List.mem_map_of_mem _ ha1
      · rcases ih a b ha1 hb1 hne with h1 | h1
        · left; simp only [pairs, List.mem_append]; right; exact h1
        · right; simp only [pairs, List.mem_append]; right; exact h1

theorem pairs_nodup {l : List Str} (h : l.Nodup) : (pairs l).Nodup := by
  induction l with
  | nil => simp [pairs]
  | cons x xs ih =>
    rcases List.nodup_cons.mp h with ⟨hx, hxs⟩
    simp only [pairs]
    refine List.Nodup.append ?_ (ih hxs) ?_
    · exact List.Nodup.map (fun a b hab => by injection hab) hxs
    · intro p hp1 hp2
      rcases List.mem_map.mp hp1 with ⟨y, _, hp⟩
      have h1 : p.1 = x := by rw [← hp]
      have h2 : p.1 ∈ xs := (mem_pairs hp2).1
      exact hx (h1 ▸ h2)

/-! ### Python `sorted` -/

theorem sortStr_perm (l : List Str) : List.Perm (sortStr l) l :=
  List.perm_insertionSort _ l

theorem sortStr_sorted (l : List Str) : List.Sorted strLeP (sortStr l) :=
  List.sorted_insertionSort _ l

theorem sortStr_nodup {l : List Str} (h : l.Nodup) : (sortStr l).Nodup :=
  ((sortStr_perm l).nodup_iff).mpr h

theorem sortStr_length (l : List Str) : (sortStr l).length = l.length :=
  (sortStr_perm l).length_eq

theorem sortStr_mem {l : List Str} {a : Str} : a ∈ sortStr l ↔ a ∈ l :=
  (sortStr_perm l).mem_iff

/-- Sorting depends only on the multiset of elements: the key fact behind
label determinism for the API pipeline. -/
theorem sortStr_eq_of_perm {l1 l2 : List Str} (h : List.Perm l1 l2) :
    sortStr l1 = sortStr l2 :=
  List.eq_of_perm_of_sorted ((sortStr_perm l1).trans (h.trans (sortStr_perm l2).symm))
    (sortStr_sorted l1) (sortStr_sorted l2)

/-! ### Set insertion, stripping, truncation, dedup -/

theorem insertSet_nodup {l : List Str} (h : l.Nodup) (x : Str) :
    (insertSet l x).Nodup := by
  unfold insertSet
  by_cases hx : x ∈ l
  · simpa [hx] using h
  · rw [if_neg hx]
    refine List.Nodup.append h (List.nodup_singleton x) ?_
    intro a ha ha'
    rw [List.mem_singleton.mp ha'] at ha
    exact hx ha

theorem insertSet_length_le (l : List Str) (x : Str) :
    (insertSet l x).length ≤ l.length + 1 := by
  unfold insertSet
  by_cases hx : x ∈ l
  · simp [hx]
  · simp [hx]

theorem le_insertSet_length (l : List Str) (x : Str) :
    l.length ≤ (insertSet l x).length := by
  unfold insertSet
  by_cases hx : x ∈ l
  · simp [hx]
  · simp [hx]

theorem length_dropWhile_le (p : Char → Bool) (l : Str) :
    (l.dropWhile p).length ≤ l.length := by
  induction l with
  | nil => simp
  | cons c rest ih =>
    rw [List.dropWhile_cons]
    by_cases h : p c = true
    · rw [if_pos h]
      exact Nat.le_succ_of_le ih
    · rw [if_neg h]

theorem dropWhile_idem (p : Char → Bool) (l : Str) :
    List.dropWhile p (List.dropWhile p l) = List.dropWhile p l := by
  induction l with
  | nil => simp
  | cons c rest ih =>
    rw [List.dropWhile_cons]
    by_cases h : p c = true
    · rw [if_pos h]; exact ih
    · rw [if_neg h, List.dropWhile_cons, if_neg h]

theorem length_dropTrailing_le (p : Char → Bool) (s : Str) :
    (dropTrailing p s).length ≤ s.length := by
  unfold dropTrailing
  rw [List.length_reverse]
  calc (s.reverse.dropWhile p).length ≤ s.reverse.length := length_dropWhile_le p s.reverse
  _ = s.length := List.length_reverse s

theorem dropTrailing_idem (p : Char → Bool) (s : Str) :
    dropTrailing p (dropTrailing p s) = dropTrailing p s := by
  unfold dropTrailing
  rw [List.reverse_reverse, dropWhile_idem]

/-- Any string a trailing strip was applied to splits off as a prefix. -/
theorem dropTrailing_append (p : Char → Bool) (u : Str) :
    ∃ r, u = dropTrailing p u ++ r := by
  obtain ⟨pre, hpre⟩ := List.dropWhile_suffix (l := u.reverse) p
  refine ⟨pre.reverse, ?_⟩
  calc u = u.reverse.reverse := (List.reverse_reverse u).symm
  _ = (pre ++ u.reverse.dropWhile p).reverse := by rw [hpre]
  _ = dropTrailing p u ++ pre.reverse := by
      rw [List.reverse_append]; rfl

/-- A string with nothing to drop at the front keeps that property after a
trailing strip. -/
theorem dropWhile_dropTrailing (p : Char → Bool) (u : Str)
    (hu : List.dropWhile p u = u) :
    List.dropWhile p (dropTrailing p u) = dropTrailing p u := by
  obtain ⟨r, hr⟩ := dropTrailing_append p u
  cases hb : dropTrailing p u with
  | nil => simp
  | cons c b' =>
    have hc : p c = false := by
      by_contra hc
      have hc' : p c = true := by
        revert hc; cases p c <;> simp
      have hstep : List.dropWhile p u = List.dropWhile p (b' ++ r) := by
        conv_lhs => rw [hr, hb]
        rw [List.cons_append, List.dropWhile_cons, if_pos hc']
      have hlen := congrArg List.length hstep
      rw [hu] at hlen
      have h1 : (List.dropWhile p (b' ++ r)).length ≤ (b' ++ r).length :=
        length_dropWhile_le p (b' ++ r)
      have h2 : u.length = (b' ++ r).length + 1 := by
        conv_lhs => rw [hr, hb]
        simp [List.length_append]
      omega
    rw [List.dropWhile_cons, if_neg (by simp [hc])]

/-- `strip()` is idempotent: indexed values are already trimmed. -/
theorem trimWs_idem (s : Str) : trimWs (trimWs s) = trimWs s := by
  unfold trimWs ldropWs
  rw [dropWhile_dropTrailing Char.isWhitespace (List.dropWhile Char.isWhitespace s)
    (dropWhile_idem Char.isWhitespace s), dropTrailing_idem]

theorem truncate_csv_length (s : Str) : (truncate_csv s).length ≤ 120 := by
  unfold truncate_csv
  by_cases h : 120 < s.length
  · rw [if_pos h, List.length_append]
    have h1 : (rstripWs (rstripCommaSpace (s.take 119))).length
        ≤ (rstripCommaSpace (s.take 119)).length := length_dropTrailing_le _ _
    have h2 : (rstripCommaSpace (s.take 119)).length ≤ (s.take 119).length :=
      length_dropTrailing_le _ _
    have h3 : (s.take 119).length ≤ 119 := List.length_take_le 119 s
    simp only [List.length_singleton]
    omega
  · rw [if_neg h]
    omega

theorem truncate_csv_of_long {s : Str} (h : 120 < s.length) :
    ∃ b, truncate_csv s = b ++ [truncMarker] ∧ b.length ≤ 119 ∧ rstripWs b = b := by
  refine ⟨rstripWs (rstripCommaSpace (s.take 119)), ?_, ?_, ?_⟩
  · unfold truncate_csv
    rw [if_pos h]
  · have h1 : (rstripWs (rstripCommaSpace (s.take 119))).length
        ≤ (rstripCommaSpace (s.take 119)).length := length_dropTrailing_le _ _
    have h2 : (rstripCommaSpace (s.take 119)).length ≤ (s.take 119).length :=
      length_dropTrailing_le _ _
    have h3 : (s.take 119).length ≤ 119 := List.length_take_le 119 s
    omega
  · exact dropTrailing_idem _ _

theorem truncate_api_length (s : Str) : (truncate_api s).length ≤ 120 := by
  unfold truncate_api
  by_cases h : 120 < s.length
  · rw [if_pos h, List.length_append]
    have h2 : (rstripCommaSpace (s.take 119)).length ≤ (s.take 119).length :=
      length_dropTrailing_le _ _
    have h3 : (s.take 119).length ≤ 119 := List.length_take_le 119 s
    simp only [List.length_singleton]
    omega
  · rw [if_neg h]
    omega

theorem truncate_api_of_long {s : Str} (h : 120 < s.length) :
    ∃ b, truncate_api s = b ++ [truncMarker] ∧ b.length ≤ 119
      ∧ rstripCommaSpace b = b := by
  refine ⟨rstripCommaSpace (s.take 119), ?_, ?_, ?_⟩
  · unfold truncate_api
    rw [if_pos h]
  · have h2 : (rstripCommaSpace (s.take 119)).length ≤ (s.take 119).length :=
      length_dropTrailing_le _ _
    have h3 : (s.take 119).length ≤ 119 := List.length_take_le 119 s
    omega
  · exact dropTrailing_idem _ _

theorem dedupe_go_spec (l : List Str) :
    ∀ seen : List Str,
      (∀ a ∈ dedupe_go seen l, normKey a ∉ seen ∧ normKey a ≠ [])
      ∧ List.Pairwise (fun a b => normKey a ≠ normKey b) (dedupe_go seen l)
      ∧ (dedupe_go seen l).Sublist l := by
  induction l with
  | nil => intro seen; exact ⟨fun a ha => absurd ha (List.not_mem_nil a), by simp [dedupe_go], by simp [dedupe_go]⟩
  | cons s rest ih =>
    intro seen
    by_cases hc : normKey s ≠ [] ∧ normKey s ∉ seen
    · have hout : dedupe_go seen (s :: rest) = s :: dedupe_go (normKey s :: seen) rest := by
        simp only [dedupe_go, if_pos hc]
      rcases ih (normKey s :: seen) with ⟨ih1, ih2, ih3⟩
      refine ⟨?_, ?_, ?_⟩
      · intro a ha
        rw [hout] at ha
        rcases List.mem_cons.mp ha with ha1 | ha1
        · rw [ha1]; exact ⟨hc.2, hc.1⟩
        · rcases ih1 a ha1 with ⟨h1, h2⟩
          exact ⟨fun hmem => h1 (List.mem_cons_of_mem _ hmem), h2⟩
      · rw [hout]
        refine List.pairwise_cons.mpr ⟨?_, ih2⟩
        intro b hb
        have h1 := (ih1 b hb).1
        intro heq
        exact h1 (heq ▸ List.mem_cons_self _ _)
      · rw [hout]
        exact List.Sublist.cons₂ s ih3
    · have hout : dedupe_go seen (s :: rest) = dedupe_go seen rest := by
        simp only [dedupe_go, if_neg hc]
      rcases ih seen with ⟨ih1, ih2, ih3⟩
      rw [hout]
      exact ⟨ih1, ih2, List.Sublist.cons s ih3⟩

/-- The dedup of the CSV script: output entries have pairwise distinct
normalization keys and appear as an order-preserving selection of the
input. -/
theorem dedupe_preserve_order_spec (l : List Str) :
    List.Pairwise (fun a b => normKey a ≠ normKey b) (dedupe_preserve_order l)
      ∧ (dedupe_preserve_order l).Sublist l := by
  rcases dedupe_go_spec l [] with ⟨_, h2, h3⟩
  exact ⟨h2, h3⟩

/-! ### The Attribute Indexer -/

theorem mem_clean_array_field {l : List Str} {v : Str} (h : v ∈ clean_array_field l) :
    ∃ o ∈ l, o ≠ [] ∧ v = trimWs o := by
  unfold clean_array_field at h
  rcases List.mem_map.mp h with ⟨o, ho, hv⟩
  rcases List.mem_filter.mp ho with ⟨ho1, ho2⟩
  refine ⟨o, ho1, ?_, hv.symm⟩
  intro hnil
  rw [hnil] at ho2
  simp at ho2

theorem mem_indexCat (cat name : Str) :
    ∀ (vals : List Str) (m : List ((Str × Str) × List Str))
      (kv : (Str × Str) × List Str), kv ∈ indexCat cat name m vals →
      kv ∈ m ∨ (kv.1.1 = cat ∧ kv.1.2 ∈ vals) := by
  intro vals
  induction vals with
  | nil => intro m kv h; left; simpa [indexCat] using h
  | cons v vs ih =>
    intro m kv h
    have h' : kv ∈ indexCat cat name (indexAdd m (cat, v) name) vs := by
      simpa [indexCat] using h
    rcases ih _ kv h' with h1 | h1
    · rcases mem_upsert (by simpa [indexAdd] using h1) with h2 | h2
      · right
        refine ⟨?_, ?_⟩
        · rw [h2]
        · rw [h2]; exact List.mem_cons_self _ _
      · left; exact h2
    · right; exact ⟨h1.1, List.mem_cons_of_mem _ h1.2⟩

theorem mem_indexRecord {m : List ((Str × Str) × List Str)} {r : RecordA}
    {kv : (Str × Str) × List Str} (h : kv ∈ indexRecord m r) :
    kv ∈ m ∨ kv.1.2 ∈ cleaned_values r := by
  unfold indexRecord at h
  by_cases hname : trimWs r.startup = []
  · rw [if_pos hname] at h
    left; exact h
  · rw [if_neg hname] at h
    simp only [cleaned_values, List.mem_append]
    rcases mem_indexCat _ _ _ _ kv h with h1 | h1
    · rcases mem_indexCat _ _ _ _ kv h1 with h2 | h2
      · rcases mem_indexCat _ _ _ _ kv h2 with h3 | h3
        · rcases mem_indexCat _ _ _ _ kv h3 with h4 | h4
          · rcases mem_indexCat _ _ _ _ kv h4 with h5 | h5
            · rcases mem_indexCat _ _ _ _ kv h5 with h6 | h6
              · rcases mem_indexCat _ _ _ _ kv h6 with h7 | h7
                · left; exact h7
                · right; left; left; left; left; left; left; exact h7.2
              · right; left; left; left; left; left; right; exact h6.2
            · right; left; left; left; left; right; exact h5.2
          · right; left; left; left; right; exact h4.2
        · right; left; left; right; exact h3.2
      · right; left; right; exact h2.2
    · right; right; exact h1.2

theorem mem_connection_index_loop :
    ∀ (recs : List RecordA) (m : List ((Str × Str) × List Str))
      (kv : (Str × Str) × List Str), kv ∈ recs.foldl indexRecord m →
      kv ∈ m ∨ ∃ r ∈ recs, kv.1.2 ∈ cleaned_values r := by
  intro recs
  induction recs with
  | nil => intro m kv h; left; simpa using h
  | cons r rest ih =>
    intro m kv h
    simp only [List.foldl_cons] at h
    rcases ih _ kv h with h1 | h1
    · rcases mem_indexRecord h1 with h2 | h2
      · left; exact h2
      · right; exact ⟨r, List.mem_cons_self _ _, h2⟩
    · obtain ⟨r2, hr2, hv⟩ := h1
      right; exact ⟨r2, List.mem_cons_of_mem _ hr2, hv⟩

theorem mem_cleaned_values {r : RecordA} {v : Str} (h : v ∈ cleaned_values r) :
    ∃ o, o ≠ [] ∧ v = trimWs o := by
  simp only [cleaned_values, List.mem_append] at h
  rcases h with ((((((h | h) | h) | h) | h) | h) | h) <;>
    · obtain ⟨o, _, ho1, ho2⟩ := mem_clean_array_field h
      exact ⟨o, ho1, ho2⟩

/-! ### The CSV connection-string parser -/

theorem parse_conn_no_sep (p : ParsedConn) (conn : Str)
    (h : splitColonSpace conn = none) :
    parse_conn p conn = { p with other := p.other ++ [conn] } := by
  unfold parse_conn
  rw [h]

theorem parse_conn_unknown (p : ParsedConn) (conn t0 v0 : Str)
    (h : splitColonSpace conn = some (t0, v0))
    (hu : strLower (trimWs t0)
      ∉ [catCity, catCountry, catCompetency, catImpact, catTargetMarket]) :
    parse_conn p conn = { p with other := p.other ++ [trimWs v0] } := by
  unfold parse_conn
  rw [h]
  simp only [List.mem_cons, List.mem_singleton, not_or] at hu
  obtain ⟨h1, h2, h3, h4, h5⟩ := hu
  simp [h1, h2, h3, h4, h5]

theorem parsedCount_parse_conn (p : ParsedConn) (conn : Str) :
    parsedCount (parse_conn p conn) = parsedCount p + 1 := by
  unfold parse_conn
  cases h : splitColonSpace conn with
  | none => simp [parsedCount]; omega
  | some tv =>
    obtain ⟨t0, v0⟩ := tv
    simp only []
    split_ifs <;> simp [parsedCount] <;> omega

theorem parsedCount_fold_loop (conns : List Str) :
    ∀ p : ParsedConn, parsedCount (conns.foldl parse_conn p)
      = parsedCount p + conns.length := by
  induction conns with
  | nil => intro p; simp
  | cons c rest ih =>
    intro p
    simp only [List.foldl_cons, List.length_cons]
    rw [ih, parsedCount_parse_conn]
    omega

/-! ### Label congruence under permutation of the aggregated sets -/

theorem perm_ne_nil {l1 l2 : List Str} (h : List.Perm l1 l2) : l1 ≠ [] ↔ l2 ≠ [] := by
  have h1 := h.length_eq
  constructor
  · intro hne h2
    rw [h2] at h1
    exact hne (List.length_eq_zero.mp h1)
  · intro hne h2
    rw [h2] at h1
    exact hne (List.length_eq_zero.mp h1.symm)

theorem token_block_congr_plain {l1 l2 : List Str} (h : List.Perm l1 l2) :
    (if l1 ≠ [] then [joinSep sepSemiSpace (sortStr l1)] else [])
      = (if l2 ≠ [] then [joinSep sepSemiSpace (sortStr l2)] else []) := by
  by_cases h1 : l1 = []
  · have h2 : l2 = [] := by
      have hl := h.length_eq
      rw [h1] at hl
      exact List.length_eq_zero.mp hl.symm
    simp [h1, h2]
  · have h2 : l2 ≠ [] := (perm_ne_nil h).mp h1
    rw [sortStr_eq_of_perm h]
    simp [h1, h2]

theorem token_block_congr_loc {l1 l2 : List Str} (h : List.Perm l1 l2) :
    (if l1 ≠ [] then [joinSep sepSemiSpace ((sortStr l1).map normalize_location)] else [])
      = (if l2 ≠ [] then
          [joinSep sepSemiSpace ((sortStr l2).map normalize_location)] else []) := by
  by_cases h1 : l1 = []
  · have h2 : l2 = [] := by
      have hl := h.length_eq
      rw [h1] at hl
      exact List.length_eq_zero.mp hl.symm
    simp [h1, h2]
  · have h2 : l2 ≠ [] := (perm_ne_nil h).mp h1
    rw [sortStr_eq_of_perm h]
    simp [h1, h2]

/-! ### Token order equations -/

theorem filterMap_guard_cons (l : List Str) (t : Str) (rest : List (List Str × Str)) :
    List.filterMap (fun st => if st.1 ≠ ([] : List Str) then some st.2 else none)
        ((l, t) :: rest)
      = (if l ≠ [] then [t] else [])
        ++ List.filterMap (fun st => if st.1 ≠ ([] : List Str) then some st.2 else none)
            rest := by
  by_cases h : l = [] <;> simp [h]

theorem filter_ne_nil_cons (t : Str) (rest : List Str) :
    List.filter (fun s => decide (s ≠ ([] : Str))) (t :: rest)
      = (if t ≠ [] then [t] else [])
        ++ List.filter (fun s => decide (s ≠ ([] : Str))) rest := by
  by_cases h : t = [] <;> simp [h]

theorem api_label_tokens_eq (i : EdgeInfoAPI) :
    label_detailed_api_pre i = joinSep sepCommaSpace (api_token_order i) := by
  unfold label_detailed_api_pre api_token_order
  rw [filterMap_guard_cons, filterMap_guard_cons, filterMap_guard_cons,
    filterMap_guard_cons, filterMap_guard_cons, filterMap_guard_cons,
    filterMap_guard_cons, List.filterMap_nil, List.append_nil]
  simp only [List.append_assoc]

theorem csv_token_order_eq (source target comp imp market city country : Str) :
    raw_parts_csv source target comp imp market city country
      = csv_token_order source target comp imp market city country := by
  unfold raw_parts_csv csv_token_order
  rw [filter_ne_nil_cons, filter_ne_nil_cons, filter_ne_nil_cons, filter_ne_nil_cons,
    filter_ne_nil_cons, List.filter_nil, List.append_nil]
  simp only [List.append_assoc]

/-! ### Projections of the API event fold -/

theorem api_fold_event_weight (e : EventAPI) (i : EdgeInfoAPI) :
    (api_fold_event e i).weight = i.weight + 1 := by
  unfold api_fold_event
  split_ifs <;> rfl

theorem api_fold_event_types (e : EventAPI) (i : EdgeInfoAPI) :
    (api_fold_event e i).types = insertSet i.types e.ctype := by
  unfold api_fold_event
  split_ifs <;> rfl

theorem api_fold_event_competencies (e : EventAPI) (i : EdgeInfoAPI) :
    (api_fold_event e i).competencies = insertSet i.competencies e.cvalue
      ∨ (api_fold_event e i).competencies = i.competencies := by
  unfold api_fold_event
  split_ifs <;> first | (left; rfl) | (right; rfl)

theorem api_fold_event_technical (e : EventAPI) (i : EdgeInfoAPI) :
    (api_fold_event e i).technical_competencies
        = insertSet i.technical_competencies e.cvalue
      ∨ (api_fold_event e i).technical_competencies = i.technical_competencies := by
  unfold api_fold_event
  split_ifs <;> first | (left; rfl) | (right; rfl)

theorem api_fold_event_impacts (e : EventAPI) (i : EdgeInfoAPI) :
    (api_fold_event e i).impacts = insertSet i.impacts e.cvalue
      ∨ (api_fold_event e i).impacts = i.impacts := by
  unfold api_fold_event
  split_ifs <;> first | (left; rfl) | (right; rfl)

theorem api_fold_event_cities (e : EventAPI) (i : EdgeInfoAPI) :
    (api_fold_event e i).cities = insertSet i.cities e.cvalue
      ∨ (api_fold_event e i).cities = i.cities := by
  unfold api_fold_event
  split_ifs <;> first | (left; rfl) | (right; rfl)

theorem api_fold_event_countries (e : EventAPI) (i : EdgeInfoAPI) :
    (api_fold_event e i).countries = insertSet i.countries e.cvalue
      ∨ (api_fold_event e i).countries = i.countries := by
  unfold api_fold_event
  split_ifs <;> first | (left; rfl) | (right; rfl)

theorem api_fold_event_regions (e : EventAPI) (i : EdgeInfoAPI) :
    (api_fold_event e i).regions = insertSet i.regions e.cvalue
      ∨ (api_fold_event e i).regions = i.regions := by
  unfold api_fold_event
  split_ifs <;> first | (left; rfl) | (right; rfl)

theorem api_fold_event_cohorts (e : EventAPI) (i : EdgeInfoAPI) :
    (api_fold_event e i).cohorts = insertSet i.cohorts e.cvalue
      ∨ (api_fold_event e i).cohorts = i.cohorts := by
  unfold api_fold_event
  split_ifs <;> first | (left; rfl) | (right; rfl)

/-! ### The expander never pairs an entity with itself on duplicate-free
entries -/

theorem expand_index_ne {idx : List ((Str × Str) × List Str)}
    (h : ∀ e ∈ idx, e.2.Nodup) :
    ∀ ev ∈ expand_index idx, ev.source ≠ ev.target := by
  intro ev hev
  unfold expand_index at hev
  rcases List.mem_flatten.mp hev with ⟨l, hl, hev2⟩
  rcases List.mem_map.mp hl with ⟨kv, hkv, hleq⟩
  rw [← hleq] at hev2
  unfold expand_entry at hev2
  rcases List.mem_map.mp hev2 with ⟨p, hp, hpev⟩
  unfold expand_entry_pairs at hp
  by_cases hlen : kv.2.length < 2
  · rw [if_pos hlen] at hp
    exact absurd hp (List.not_mem_nil p)
  · rw [if_neg hlen] at hp
    have hnd : (sortStr kv.2).Nodup := sortStr_nodup (h kv hkv)
    have hne := pairs_ne_of_nodup hnd p hp
    rw [← hpev]
    exact hne

/-! ### The claims -/

/-- Claim C1: in both pipelines, every aggregated edge's weight equals the
number of sharing events whose unordered entity-pair key matches the
edge's key, counted with multiplicity — each folded event adds exactly 1,
and identical events are not deduplicated in the count. -/
theorem weight_counts_events :
    (∀ (rows : List RowCSV) (kv : (Str × Str) × EdgeInfoCSV),
      kv ∈ combined_edges_csv rows →
      kv.2.weight = rows.countP (fun r => decide (rowKey r = kv.1)))
    ∧ (∀ (evs : List EventAPI) (kv : (Str × Str) × EdgeInfoAPI),
      kv ∈ combined_edges_api evs →
      kv.2.weight = evs.countP (fun e => decide (eventKey e = kv.1))) := by
  constructor
  · intro rows kv hkv
    have hn := aggregate_keys_nodup rowKey emptyInfoCSV csv_fold_row rows
    have hl : lookupE (aggregate rowKey emptyInfoCSV csv_fold_row rows) kv.1 = some kv.2 :=
      lookupE_of_mem hn hkv
    have hw := wAt_aggregate rowKey emptyInfoCSV csv_fold_row (fun i => i.weight)
      rfl (fun e v => rfl) rows kv.1
    unfold wAt at hw
    rw [hl] at hw
    exact hw
  · intro evs kv hkv
    have hn := aggregate_keys_nodup eventKey emptyInfoAPI api_fold_event evs
    have hl : lookupE (aggregate eventKey emptyInfoAPI api_fold_event evs) kv.1
        = some kv.2 := lookupE_of_mem hn hkv
    have hw := wAt_aggregate eventKey emptyInfoAPI api_fold_event (fun i => i.weight)
      rfl (fun e v => api_fold_event_weight e v) evs kv.1
    unfold wAt at hw
    rw [hl] at hw
    exact hw

/-- Witness for C1: folding the same CSV row twice yields one edge of
weight 2, which equals the matching-event count. -/
theorem weight_counts_events_witness :
    (((strA, strB), infoABcity2) ∈ combined_edges_csv [rowAB, rowAB])
    ∧ infoABcity2.weight
        = List.countP (fun r => decide (rowKey r = ((strA, strB) : Str × Str)))
            [rowAB, rowAB] :=
  ⟨by decide, weight_counts_events.1 [rowAB, rowAB] ((strA, strB), infoABcity2) (by decide)⟩

/-- Counterexample for C2: a CSV row whose Source equals its Target
produces an aggregated edge with source = target, and an index entry that
lists the same entity twice makes the API pipeline do the same — so
self-pairs are not excluded in all cases. -/
theorem self_edge_counterexample :
    (combined_edges_csv [rowSelf]).map (fun kv => kv.1) = [(strA, strA)]
    ∧ (combined_edges_api (expand_index [((catCity, valPa), [strA, strA])])).map
        (fun kv => kv.1) = [(strA, strA)] := by
  refine ⟨by decide, by decide⟩

/-- Claim C2 (amended): no aggregated edge has source equal to target,
provided no CSV row lists the same name as both Source and Target, and no
index entry lists the same entity name twice. -/
theorem no_self_edges_amended :
    (∀ rows : List RowCSV, (∀ r ∈ rows, r.Source ≠ r.Target) →
      ∀ kv ∈ combined_edges_csv rows, kv.1.1 ≠ kv.1.2)
    ∧ (∀ idx : List ((Str × Str) × List Str), (∀ e ∈ idx, e.2.Nodup) →
      ∀ kv ∈ combined_edges_api (expand_index idx), kv.1.1 ≠ kv.1.2) := by
  constructor
  · intro rows h kv hkv
    have hk := aggregate_mem_key rowKey emptyInfoCSV csv_fold_row rows hkv
    rcases List.mem_map.mp hk with ⟨r, hr, hkey⟩
    rw [← hkey]
    exact pairKey_ne (h r hr)
  · intro idx h kv hkv
    have hk := aggregate_mem_key eventKey emptyInfoAPI api_fold_event
      (expand_index idx) hkv
    rcases List.mem_map.mp hk with ⟨ev, hev, hkey⟩
    rw [← hkey]
    exact pairKey_ne (expand_index_ne h ev hev)

/-- Witness for C2: one well-formed row, its one aggregated edge, and the
conclusion at that edge. -/
theorem no_self_edges_witness :
    ((∀ r ∈ [rowBA], r.Source ≠ r.Target)
      ∧ ((strA, strB), infoABcity) ∈ combined_edges_csv [rowBA])
    ∧ strA ≠ strB :=
  ⟨⟨by decide, by decide⟩,
    no_self_edges_amended.1 [rowBA] (by decide) ((strA, strB), infoABcity) (by decide)⟩

/-- Counterexample for C3: a 121-character assembled label whose
119-character kept prefix already ends in the marker character gets a
second marker appended — the emitted label ends with two markers, not
exactly one. -/
theorem label_double_marker_counterexample :
    120 < (label_detailed_csv_pre strA strB [longConn]).length
    ∧ (label_detailed_csv strA strB [longConn]).length = 120
    ∧ (label_detailed_csv strA strB [longConn]).reverse.take 2
        = [truncMarker, truncMarker] := by
  refine ⟨by decide, by decide, by decide⟩

/-- Claim C3 (amended): every detailed label is at most 120 characters; a
label whose assembled form exceeds 120 characters is cut to a stripped
body of at most 119 characters (no trailing comma/space; the CSV pipeline
also strips other trailing whitespace) with one marker character
appended — the result ends with the marker, though not necessarily with
exactly one marker character when the kept text itself ends in it. -/
theorem label_truncation_bound :
    (∀ (source target : Str) (conns : List Str),
      (label_detailed_csv source target conns).length ≤ 120
      ∧ (120 < (label_detailed_csv_pre source target conns).length →
          ∃ b, label_detailed_csv source target conns = b ++ [truncMarker]
            ∧ b.length ≤ 119 ∧ rstripWs b = b))
    ∧ (∀ i : EdgeInfoAPI,
      (label_detailed_api i).length ≤ 120
      ∧ (120 < (label_detailed_api_pre i).length →
          ∃ b, label_detailed_api i = b ++ [truncMarker]
            ∧ b.length ≤ 119 ∧ rstripCommaSpace b = b)) := by
  constructor
  · intro source target conns
    exact ⟨truncate_csv_length _, fun h => truncate_csv_of_long h⟩
  · intro i
    exact ⟨truncate_api_length _, fun h => truncate_api_of_long h⟩

/-- Witness for C3: a 136-character assembled label is truncated to the
bounded, marker-terminated form. -/
theorem label_truncation_bound_witness :
    (120 < (label_detailed_csv_pre strA strB [longConn2]).length)
    ∧ (label_detailed_csv strA strB [longConn2]).length ≤ 120
    ∧ ∃ b, label_detailed_csv strA strB [longConn2] = b ++ [truncMarker]
        ∧ b.length ≤ 119 ∧ rstripWs b = b :=
  ⟨by decide, (label_truncation_bound.1 strA strB [longConn2]).1,
    (label_truncation_bound.1 strA strB [longConn2]).2 (by decide)⟩

/-- Counterexample for C4: enumerating one edge's connection set in two
different orders — both enumerations of the same underlying set — makes
the CSV pipeline synthesize different detailed labels, so the label does
depend on set iteration order. -/
theorem csv_label_order_dependent :
    List.Perm [connML, connNLP] [connNLP, connML]
    ∧ label_detailed_csv strA strB [connML, connNLP]
        ≠ label_detailed_csv strA strB [connNLP, connML] := by
  refine ⟨List.Perm.swap connNLP connML [], by decide⟩

/-- Claim C4 (amended): the API pipeline's label synthesis is
deterministic — it depends only on the contents of the per-category value
sets, not on the order they were accumulated in, because every set is
sorted before joining.  (The CSV pipeline lacks this property.) -/
theorem api_label_deterministic (i1 i2 : EdgeInfoAPI)
    (h1 : List.Perm i1.competencies i2.competencies)
    (h2 : List.Perm i1.technical_competencies i2.technical_competencies)
    (h3 : List.Perm i1.impacts i2.impacts)
    (h4 : List.Perm i1.cities i2.cities)
    (h5 : List.Perm i1.countries i2.countries)
    (h6 : List.Perm i1.regions i2.regions)
    (h7 : List.Perm i1.cohorts i2.cohorts) :
    label_detailed_api i1 = label_detailed_api i2 := by
  unfold label_detailed_api label_detailed_api_pre
  rw [token_block_congr_plain h1, token_block_congr_plain h2, token_block_congr_plain h3,
    token_block_congr_loc h4, token_block_congr_loc h5, token_block_congr_plain h6,
    token_block_congr_plain h7]

/-- Witness for C4: two edges whose competency sets were accumulated in
opposite orders get byte-identical labels. -/
theorem api_label_deterministic_witness :
    (List.Perm iW1.competencies iW2.competencies
      ∧ List.Perm iW1.technical_competencies iW2.technical_competencies
      ∧ List.Perm iW1.impacts iW2.impacts ∧ List.Perm iW1.cities iW2.cities
      ∧ List.Perm iW1.countries iW2.countries ∧ List.Perm iW1.regions iW2.regions
      ∧ List.Perm iW1.cohorts iW2.cohorts)
    ∧ label_detailed_api iW1 = label_detailed_api iW2 :=
  ⟨⟨by decide, by decide, by decide, by decide, by decide, by decide, by decide⟩,
    api_label_deterministic iW1 iW2 (by decide) (by decide) (by decide) (by decide)
      (by decide) (by decide) (by decide)⟩

/-- Counterexample for C5: an entry listing the same entity twice has a
distinct-entity set of size 1 (below the expansion threshold), yet the
expander emits one sharing event — and it is a self-pair. -/
theorem expander_duplicate_counterexample :
    expand_entry_pairs [strA, strA] = [(strA, strA)]
    ∧ ([strA, strA] : List Str).dedup.length = 1 := by
  refine ⟨by decide, by decide⟩

/-- Claim C5 (amended): for an index entry listing n distinct entities
(no duplicates), the expander emits exactly C(n,2) events when n ≥ 2 —
one per unordered pair of distinct listed entities, in sorted orientation,
with no repetition — and nothing when the entry lists fewer than two
entities. -/
theorem expander_pair_events (names : List Str) (hnd : names.Nodup) :
    (2 ≤ names.length →
      (expand_entry_pairs names).length = Nat.choose names.length 2
      ∧ (∀ p ∈ expand_entry_pairs names,
          p.1 ∈ names ∧ p.2 ∈ names ∧ strLe p.1 p.2 = true ∧ p.1 ≠ p.2)
      ∧ (∀ a b, a ∈ names → b ∈ names → a ≠ b →
          (a, b) ∈ expand_entry_pairs names ∨ (b, a) ∈ expand_entry_pairs names)
      ∧ (expand_entry_pairs names).Nodup
      ∧ ∀ ck : Str × Str, (expand_entry ck names).length
          = (expand_entry_pairs names).length)
    ∧ (names.length < 2 → expand_entry_pairs names = []) := by
  constructor
  · intro hlen
    have hnot : ¬ names.length < 2 := by omega
    have hexp : expand_entry_pairs names = pairs (sortStr names) := by
      unfold expand_entry_pairs
      rw [if_neg hnot]
    have hsnd : (sortStr names).Nodup := sortStr_nodup hnd
    refine ⟨?_, ?_, ?_, ?_, ?_⟩
    · rw [hexp, pairs_length, sortStr_length]
    · intro p hp
      rw [hexp] at hp
      have hm := mem_pairs hp
      exact ⟨sortStr_mem.mp hm.1, sortStr_mem.mp hm.2,
        pairs_le_of_sorted (sortStr_sorted names) p hp,
        pairs_ne_of_nodup hsnd p hp⟩
    · intro a b ha hb hne
      rw [hexp]
      exact pairs_cover (sortStr names) a b (sortStr_mem.mpr ha) (sortStr_mem.mpr hb) hne
    · rw [hexp]
      exact pairs_nodup hsnd
    · intro ck
      unfold expand_entry
      rw [List.length_map]
  · intro hlen
    unfold expand_entry_pairs
    rw [if_pos hlen]

/-- Witness for C5: four distinct entities expand to C(4,2) = 6 sharing
events. -/
theorem expander_pair_events_witness :
    (names4.Nodup ∧ 2 ≤ names4.length)
    ∧ (expand_entry_pairs names4).length = Nat.choose names4.length 2 :=
  ⟨⟨by decide, by decide⟩, ((expander_pair_events names4 (by decide)).1 (by decide)).1⟩

/-- Counterexample for C6: the API pipeline keeps both "ML" and "ml" in
one edge's competency set although they agree after whitespace
normalization and case folding — its per-category sets dedup only exact
duplicates. -/
theorem api_value_dedup_counterexample :
    (combined_edges_api [evML, evml]).map (fun kv => kv.2.competencies)
      = [[valML, valml]]
    ∧ normKey valML = normKey valml := by
  refine ⟨by decide, by decide⟩

/-- Claim C6 (amended): the CSV pipeline's per-category value lists are
deduplicated case-insensitively on whitespace-normalized content,
preserving first-seen order; the API pipeline's per-category sets are
deduplicated only up to exact string equality. -/
theorem value_sets_dedup :
    (∀ l : List Str,
      List.Pairwise (fun a b => normKey a ≠ normKey b) (dedupe_preserve_order l)
      ∧ (dedupe_preserve_order l).Sublist l)
    ∧ (∀ (evs : List EventAPI) (kv : (Str × Str) × EdgeInfoAPI),
      kv ∈ combined_edges_api evs →
      kv.2.competencies.Nodup ∧ kv.2.technical_competencies.Nodup
        ∧ kv.2.impacts.Nodup ∧ kv.2.cities.Nodup ∧ kv.2.countries.Nodup
        ∧ kv.2.regions.Nodup ∧ kv.2.cohorts.Nodup) := by
  constructor
  · exact dedupe_preserve_order_spec
  · intro evs kv hkv
    have hstep : ∀ (e : EventAPI) (v : EdgeInfoAPI),
        (v.competencies.Nodup ∧ v.technical_competencies.Nodup ∧ v.impacts.Nodup
          ∧ v.cities.Nodup ∧ v.countries.Nodup ∧ v.regions.Nodup ∧ v.cohorts.Nodup) →
        ((api_fold_event e v).competencies.Nodup
          ∧ (api_fold_event e v).technical_competencies.Nodup
          ∧ (api_fold_event e v).impacts.Nodup ∧ (api_fold_event e v).cities.Nodup
          ∧ (api_fold_event e v).countries.Nodup ∧ (api_fold_event e v).regions.Nodup
          ∧ (api_fold_event e v).cohorts.Nodup) := by
      intro e v hv
      obtain ⟨n1, n2, n3, n4, n5, n6, n7⟩ := hv
      refine ⟨?_, ?_, ?_, ?_, ?_, ?_, ?_⟩
      · rcases api_fold_event_competencies e v with h | h
        · rw [h]; exact insertSet_nodup n1 _
        · rw [h]; exact n1
      · rcases api_fold_event_technical e v with h | h
        · rw [h]; exact insertSet_nodup n2 _
        · rw [h]; exact n2
      · rcases api_fold_event_impacts e v with h | h
        · rw [h]; exact insertSet_nodup n3 _
        · rw [h]; exact n3
      · rcases api_fold_event_cities e v with h | h
        · rw [h]; exact insertSet_nodup n4 _
        · rw [h]; exact n4
      · rcases api_fold_event_countries e v with h | h
        · rw [h]; exact insertSet_nodup n5 _
        · rw [h]; exact n5
      · rcases api_fold_event_regions e v with h | h
        · rw [h]; exact insertSet_nodup n6 _
        · rw [h]; exact n6
      · rcases api_fold_event_cohorts e v with h | h
        · rw [h]; exact insertSet_nodup n7 _
        · rw [h]; exact n7
    have hempty : emptyInfoAPI.competencies.Nodup
        ∧ emptyInfoAPI.technical_competencies.Nodup ∧ emptyInfoAPI.impacts.Nodup
        ∧ emptyInfoAPI.cities.Nodup ∧ emptyInfoAPI.countries.Nodup
        ∧ emptyInfoAPI.regions.Nodup ∧ emptyInfoAPI.cohorts.Nodup :=
      ⟨List.nodup_nil, List.nodup_nil, List.nodup_nil, List.nodup_nil,
        List.nodup_nil, List.nodup_nil, List.nodup_nil⟩
    exact aggregate_forall eventKey emptyInfoAPI api_fold_event
      (fun i => i.competencies.Nodup ∧ i.technical_competencies.Nodup
        ∧ i.impacts.Nodup ∧ i.cities.Nodup ∧ i.countries.Nodup
        ∧ i.regions.Nodup ∧ i.cohorts.Nodup)
      (fun e => hstep e emptyInfoAPI hempty) hstep evs kv hkv

/-- Witness for C6: the concrete edge accumulating "ML" and "ml" still has
exactly-duplicate-free per-category sets. -/
theorem value_sets_dedup_witness :
    (((strA, strB), infoMLml) ∈ combined_edges_api [evML, evml])
    ∧ (infoMLml.competencies.Nodup ∧ infoMLml.technical_competencies.Nodup
      ∧ infoMLml.impacts.Nodup ∧ infoMLml.cities.Nodup ∧ infoMLml.countries.Nodup
      ∧ infoMLml.regions.Nodup ∧ infoMLml.cohorts.Nodup) :=
  ⟨by decide, value_sets_dedup.2 [evML, evml] ((strA, strB), infoMLml) (by decide)⟩

/-- Counterexample for C7: an API edge holding one city value and one
region value gets the label "Pa, Qa" — city before region — while the
order the claim states (market/region/cohort before city and country)
would produce "Qa, Pa". -/
theorem label_order_counterexample :
    (combined_edges_api [evCity, evRegion]).map
        (fun kv => (kv.1, label_detailed_api kv.2, spec_order_label_api kv.2))
      = [((strA, strB), labelPaQa, labelQaPa)]
    ∧ labelPaQa ≠ labelQaPa := by
  refine ⟨by decide, by decide⟩

/-- Claim C7 (amended): the CSV label's tokens follow the precedence
source, target, competency, impact, target market, city, country; the API
label's tokens follow the precedence competencies, technical competencies,
impacts, cities, countries, regions, cohorts — i.e. its location tokens
come before the region and cohort tokens, not after. -/
theorem label_token_order :
    (∀ source target comp_str imp_str market_str city_str country_str : Str,
      raw_parts_csv source target comp_str imp_str market_str city_str country_str
        = csv_token_order source target comp_str imp_str market_str city_str country_str)
    ∧ (∀ i : EdgeInfoAPI,
      label_detailed_api_pre i = joinSep sepCommaSpace (api_token_order i)) :=
  ⟨csv_token_order_eq, api_label_tokens_eq⟩

/-- Claim C8: a connection string without the `': '` separator is filed
whole under the catch-all other category, a parsed category outside the
known set files its value under other, and every processed string lands in
exactly one bucket — nothing is dropped and nothing fails. -/
theorem parse_conn_other_fallback :
    (∀ (p : ParsedConn) (conn : Str), splitColonSpace conn = none →
      parse_conn p conn = { p with other := p.other ++ [conn] })
    ∧ (∀ (p : ParsedConn) (conn t0 v0 : Str), splitColonSpace conn = some (t0, v0) →
      strLower (trimWs t0)
          ∉ [catCity, catCountry, catCompetency, catImpact, catTargetMarket] →
      parse_conn p conn = { p with other := p.other ++ [trimWs v0] })
    ∧ (∀ conns : List Str,
      parsedCount (conns.foldl parse_conn emptyParsed) = conns.length) := by
  refine ⟨parse_conn_no_sep, parse_conn_unknown, ?_⟩
  intro conns
  rw [parsedCount_fold_loop conns emptyParsed]
  simp [parsedCount, emptyParsed]

/-- Witness for C8: the string "foo: bar" parses with unknown category
"foo" and lands under other as "bar". -/
theorem parse_conn_other_fallback_witness :
    (splitColonSpace fooBar = some (strFoo, strBar)
      ∧ strLower (trimWs strFoo)
          ∉ [catCity, catCountry, catCompetency, catImpact, catTargetMarket])
    ∧ parse_conn emptyParsed fooBar
        = { emptyParsed with other := emptyParsed.other ++ [trimWs strBar] } :=
  ⟨⟨by decide, by decide⟩,
    parse_conn_other_fallback.2.1 emptyParsed fooBar strFoo strBar (by decide) (by decide)⟩

/-- Counterexample for C9: a whitespace-only field value passes the
truthiness filter, is trimmed to the empty string, and IS indexed — the
index gains the key (competency, "") — contradicting the claim that
values empty after trimming are skipped. -/
theorem whitespace_value_indexed_counterexample :
    connection_index [recWS] = [((catCompetency, []), [strA])]
    ∧ (connection_index [recWS]).map (fun kv => kv.1.2) = [[]] := by
  refine ⟨by decide, by decide⟩

/-- Claim C9 (amended): every value placed into the index is trimmed of
surrounding whitespace and originates from a value that was nonempty
before trimming (missing and empty values are skipped) — but a
whitespace-only value is trimmed to the empty string and still indexed. -/
theorem index_values_trimmed :
    ∀ (recs : List RecordA) (kv : (Str × Str) × List Str),
      kv ∈ connection_index recs →
      trimWs kv.1.2 = kv.1.2 ∧ ∃ o, o ≠ [] ∧ kv.1.2 = trimWs o := by
  intro recs kv hkv
  rcases mem_connection_index_loop recs [] kv hkv with h | h
  · exact absurd h (List.not_mem_nil kv)
  · obtain ⟨r, _, hv⟩ := h
    obtain ⟨o, ho1, ho2⟩ := mem_cleaned_values hv
    refine ⟨?_, o, ho1, ho2⟩
    rw [ho2, trimWs_idem]

/-- Witness for C9: the value " hi " is indexed as the trimmed "hi". -/
theorem index_values_trimmed_witness :
    (((catCompetency, hiTrim), [strB]) ∈ connection_index [recW9])
    ∧ (trimWs hiTrim = hiTrim ∧ ∃ o, o ≠ [] ∧ hiTrim = trimWs o) :=
  ⟨by decide, index_values_trimmed [recW9] ((catCompetency, hiTrim), [strB]) (by decide)⟩

/-- Claim C10: every aggregated edge's key is lexicographically sorted
(source ≤ target), its category set holds no duplicates, and
1 ≤ number of distinct categories ≤ weight. -/
theorem edge_key_sorted_weight_bound :
    (∀ (rows : List RowCSV) (kv : (Str × Str) × EdgeInfoCSV),
      kv ∈ combined_edges_csv rows →
      strLe kv.1.1 kv.1.2 = true ∧ kv.2.types.Nodup
        ∧ 1 ≤ kv.2.types.length ∧ kv.2.types.length ≤ kv.2.weight)
    ∧ (∀ (evs : List EventAPI) (kv : (Str × Str) × EdgeInfoAPI),
      kv ∈ combined_edges_api evs →
      strLe kv.1.1 kv.1.2 = true ∧ kv.2.types.Nodup
        ∧ 1 ≤ kv.2.types.length ∧ kv.2.types.length ≤ kv.2.weight) := by
  constructor
  · intro rows kv hkv
    have hsorted : strLe kv.1.1 kv.1.2 = true := by
      have hk := aggregate_mem_key rowKey emptyInfoCSV csv_fold_row rows hkv
      rcases List.mem_map.mp hk with ⟨r, _, hkeq⟩
      rw [← hkeq]
      exact pairKey_le r.Source r.Target
    have hinv := aggregate_forall rowKey emptyInfoCSV csv_fold_row
      (fun i => i.types.Nodup ∧ 1 ≤ i.types.length ∧ i.types.length ≤ i.weight)
      ?_ ?_ rows kv hkv
    · exact ⟨hsorted, hinv.1, hinv.2.1, hinv.2.2⟩
    · intro r
      refine ⟨insertSet_nodup List.nodup_nil r.rowType, ?_, ?_⟩
      · show 1 ≤ (insertSet [] r.rowType).length
        simp [insertSet]
      · show (insertSet [] r.rowType).length ≤ 0 + 1
        simp [insertSet]
    · intro r v hv
      obtain ⟨hv1, hv2, hv3⟩ := hv
      have ha := le_insertSet_length v.types r.rowType
      have hb := insertSet_length_le v.types r.rowType
      refine ⟨insertSet_nodup hv1 r.rowType, ?_, ?_⟩
      · show 1 ≤ (insertSet v.types r.rowType).length
        omega
      · show (insertSet v.types r.rowType).length ≤ v.weight + 1
        omega
  · intro evs kv hkv
    have hsorted : strLe kv.1.1 kv.1.2 = true := by
      have hk := aggregate_mem_key eventKey emptyInfoAPI api_fold_event evs hkv
      rcases List.mem_map.mp hk with ⟨e, _, hkeq⟩
      rw [← hkeq]
      exact pairKey_le e.source e.target
    have hinv := aggregate_forall eventKey emptyInfoAPI api_fold_event
      (fun i => i.types.Nodup ∧ 1 ≤ i.types.length ∧ i.types.length ≤ i.weight)
      ?_ ?_ evs kv hkv
    · exact ⟨hsorted, hinv.1, hinv.2.1, hinv.2.2⟩
    · intro e
      refine ⟨?_, ?_, ?_⟩
      · rw [api_fold_event_types]
        exact insertSet_nodup List.nodup_nil e.ctype
      · rw [api_fold_event_types]
        show 1 ≤ (insertSet [] e.ctype).length
        simp [insertSet]
      · rw [api_fold_event_types, api_fold_event_weight]
        show (insertSet [] e.ctype).length ≤ 0 + 1
        simp [insertSet]
    · intro e v hv
      obtain ⟨hv1, hv2, hv3⟩ := hv
      have ha := le_insertSet_length v.types e.ctype
      have hb := insertSet_length_le v.types e.ctype
      refine ⟨?_, ?_, ?_⟩
      · rw [api_fold_event_types]
        exact insertSet_nodup hv1 e.ctype
      · rw [api_fold_event_types]
        omega
      · rw [api_fold_event_types, api_fold_event_weight]
        omega

/-- Witness for C10: the single-row CSV run yields the sorted-key edge
(A, B) with one category and weight 1. -/
theorem edge_key_sorted_weight_bound_witness :
    (((strA, strB), infoABcity) ∈ combined_edges_csv [rowAB])
    ∧ (strLe strA strB = true ∧ infoABcity.types.Nodup
      ∧ 1 ≤ infoABcity.types.length ∧ infoABcity.types.length ≤ infoABcity.weight) :=
  ⟨by decide,
    edge_key_sorted_weight_bound.1 [rowAB] ((strA, strB), infoABcity) (by decide)⟩

end Chemstars
